import Mathlib

/-!
Shallow embedding of `src/cookbook/esop.py`: the `CoxRossRubinstein` binomial
tree pricer and its two ESOP variants `BinomialESOP` and `EnhancedFASB`.

A numpy `(M+1) x (M+1)` array is modelled as a total function `ℕ → ℕ → ℝ`;
only indices `0 ≤ i, j ≤ M` correspond to actual array cells.  Floating-point
arithmetic is modelled by exact real arithmetic.  The backward-induction loops
(`for j in reversed(range(M)): for i in range(M): ...`) are modelled by a
fuel-indexed recursion where the fuel at column `j` is `M - j`: within one
column every node only reads the already finished column `j+1`, so the
column-by-column recursion reproduces the loop exactly.
-/

noncomputable section

namespace Esop

/-- `np.triu`: keep the upper triangle (`i ≤ j`), zero strictly below it. -/
def triu (f : ℕ → ℕ → ℝ) : ℕ → ℕ → ℝ := fun i j => if i ≤ j then f i j else 0

/-- The constructor state of `CoxRossRubinstein.__init__`.  `isCall` models
`option_type == "call"` and `isAmerican` models `exercise_type == "american"`
(the code only ever branches on those two equalities). -/
structure CRRConfig where
  S0 : ℝ
  K : ℝ
  sigma : ℝ
  r : ℝ
  q : ℝ
  T : ℝ
  M : ℕ
  isCall : Bool
  isAmerican : Bool

/-- `self.dt = self.T / self.M` -/
def CRRConfig.dt (c : CRRConfig) : ℝ := c.T / (c.M : ℝ)

/-- `self.u = np.exp(self.sigma * np.sqrt(self.dt))` from `_calculate_movements`. -/
def CRRConfig.u (c : CRRConfig) : ℝ := Real.exp (c.sigma * Real.sqrt c.dt)

/-- `self.d = 1 / self.u` from `_calculate_movements`. -/
def CRRConfig.d (c : CRRConfig) : ℝ := 1 / c.u

/-- `self.p = (np.exp((self.r - self.q) * self.dt) - self.d) / (self.u - self.d)`
from `_calculate_movements`. -/
def CRRConfig.p (c : CRRConfig) : ℝ :=
  (Real.exp ((c.r - c.q) * c.dt) - c.d) / (c.u - c.d)

/-- `_overwrite_movements(u, d)`: the probability recomputed from externally
supplied movements `u`, `d` (the stored `u`, `d` are replaced by the
arguments and `p` is recomputed by the same formula, with no validation). -/
def overwriteMovementsP (c : CRRConfig) (u d : ℝ) : ℝ :=
  (Real.exp ((c.r - c.q) * c.dt) - d) / (u - d)

/-- `simulate_price_tree`: with `up[i][j] = j` and `down[i][j] = 2*i`,
`S = S0 * np.exp(sigma * np.sqrt(dt) * (up - down))`, returned as `np.triu(S)`. -/
def simulate_price_tree (c : CRRConfig) : ℕ → ℕ → ℝ :=
  triu (fun i j => c.S0 * Real.exp (c.sigma * Real.sqrt c.dt * ((j : ℝ) - 2 * (i : ℝ))))

/-- `calculate_payoffs`: `np.maximum(np.triu(price_tree - K), 0)` for a call,
`np.maximum(np.triu(K - price_tree), 0)` otherwise. -/
def calculate_payoffs (c : CRRConfig) (priceTree : ℕ → ℕ → ℝ) : ℕ → ℕ → ℝ :=
  fun i j =>
    if c.isCall then max (triu (fun a b => priceTree a b - c.K) i j) 0
    else max (triu (fun a b => c.K - priceTree a b) i j) 0

/-- Backward loop of `CoxRossRubinstein.calculate_option_values`, indexed by
the fuel `M - j`.  Fuel `0` is column `M`, where `result[:, -1] = payoffs[:, -1]`.
At positive fuel, rows `0 .. M-1` receive the discounted expectation of column
`j+1` (with the early-exercise `max` when `exercise_type == "american"`), and
row `M` keeps the zero the result matrix was initialized with.  (The
`if j == len(payoffs) - 1` branch of the source is unreachable: the column
loop starts at `M - 1`.) -/
def crrValueAux (M : ℕ) (P : ℕ → ℕ → ℝ) (p disc : ℝ) (amer : Bool) :
    ℕ → ℕ → ℕ → ℝ
  | 0, i, _ => P i M
  | fuel + 1, i, j =>
    if j < M then
      if i < M then
        let cont := disc * (p * crrValueAux M P p disc amer fuel i (j + 1) +
          (1 - p) * crrValueAux M P p disc amer fuel (i + 1) (j + 1))
        if amer then max (P i j) cont else cont
      else 0
    else P i M

/-- `CoxRossRubinstein.calculate_option_values(payoffs)`: run the backward
loop and return `np.triu(result)`. -/
def calculate_option_values (c : CRRConfig) (P : ℕ → ℕ → ℝ) : ℕ → ℕ → ℝ :=
  triu (fun i j =>
    crrValueAux c.M P c.p (Real.exp (-c.r * c.dt)) c.isAmerican (c.M - j) i j)

/-- The in-place vesting mask `payoffs[self.vesting_mask] = 0`, where
`vesting_mask[i][j]` holds iff `step_matrix[i][j] = j * dt ≤ vesting_period`
(the step matrix `np.tile(np.arange(0, M+1) * dt, (M+1, 1))` is constant
along rows). -/
def maskPayoffs (dt vp : ℝ) (P : ℕ → ℕ → ℝ) : ℕ → ℕ → ℝ :=
  fun i j => if (j : ℝ) * dt ≤ vp then 0 else P i j

/-- Backward loop of `BinomialESOP.calculate_option_values` (after the vesting
mask has been applied to `P`), with turnover rate `tr` and exercise
probabilities `ex`. -/
def esopValueAux (M : ℕ) (P : ℕ → ℕ → ℝ) (p disc tr : ℝ) (ex : ℕ → ℕ → ℝ)
    (amer : Bool) : ℕ → ℕ → ℕ → ℝ
  | 0, i, _ => P i M
  | fuel + 1, i, j =>
    if j < M then
      if i < M then
        let cont := disc * (p * esopValueAux M P p disc tr ex amer fuel i (j + 1) +
          (1 - p) * esopValueAux M P p disc tr ex amer fuel (i + 1) (j + 1))
        let tp := ex i j + (1 - ex i j) * tr
        let ov := tp * P i j + (1 - tp) * cont
        if amer then max (P i j) ov else ov
      else 0
    else P i M

/-- `BinomialESOP.calculate_option_values(payoffs)`: mask the payoffs in
place, run the backward loop, return `np.triu(result)`. -/
def esop_calculate_option_values (c : CRRConfig) (vp tr : ℝ) (ex : ℕ → ℕ → ℝ)
    (P : ℕ → ℕ → ℝ) : ℕ → ℕ → ℝ :=
  triu (fun i j =>
    esopValueAux c.M (maskPayoffs c.dt vp P) c.p (Real.exp (-c.r * c.dt)) tr ex
      c.isAmerican (c.M - j) i j)

/-- Backward loop of `EnhancedFASB.calculate_option_values` (after the vesting
mask), with forced exercise when `price_tree[i][j] >= km * K` and
`step_matrix[i][j] > vesting_period`. -/
def fasbValueAux (M : ℕ) (P priceTree : ℕ → ℕ → ℝ) (p disc tr dt vp km K : ℝ)
    (amer : Bool) : ℕ → ℕ → ℕ → ℝ
  | 0, i, _ => P i M
  | fuel + 1, i, j =>
    if j < M then
      if i < M then
        let cont := disc *
          (p * fasbValueAux M P priceTree p disc tr dt vp km K amer fuel i (j + 1) +
           (1 - p) * fasbValueAux M P priceTree p disc tr dt vp km K amer fuel (i + 1) (j + 1))
        let ov := if km * K ≤ priceTree i j ∧ vp < (j : ℝ) * dt then P i j
          else tr * dt * P i j + (1 - tr * dt) * cont
        if amer then max (P i j) ov else ov
      else 0
    else P i M

/-- `EnhancedFASB.calculate_option_values(payoffs)` (reading `self.price_tree`,
which `present_value` sets to the simulated price tree). -/
def fasb_calculate_option_values (c : CRRConfig) (vp tr km : ℝ)
    (priceTree P : ℕ → ℕ → ℝ) : ℕ → ℕ → ℝ :=
  triu (fun i j =>
    fasbValueAux c.M (maskPayoffs c.dt vp P) priceTree c.p
      (Real.exp (-c.r * c.dt)) tr c.dt vp km c.K c.isAmerican (c.M - j) i j)

/-- The payoff matrix computed inside `present_value`. -/
def crr_payoffs (c : CRRConfig) : ℕ → ℕ → ℝ :=
  calculate_payoffs c (simulate_price_tree c)

/-- The value matrix computed inside `CoxRossRubinstein.present_value`. -/
def crr_values (c : CRRConfig) : ℕ → ℕ → ℝ :=
  calculate_option_values c (crr_payoffs c)

/-- `CoxRossRubinstein.present_value`: the root node `values[0, 0]`. -/
def present_value (c : CRRConfig) : ℝ := crr_values c 0 0

/-- The value matrix computed inside `BinomialESOP.present_value`. -/
def esop_values (c : CRRConfig) (vp tr : ℝ) (ex : ℕ → ℕ → ℝ) : ℕ → ℕ → ℝ :=
  esop_calculate_option_values c vp tr ex (crr_payoffs c)

/-- The value matrix computed inside `EnhancedFASB.present_value`. -/
def fasb_values (c : CRRConfig) (vp tr km : ℝ) : ℕ → ℕ → ℝ :=
  fasb_calculate_option_values c vp tr km (simulate_price_tree c) (crr_payoffs c)

/-- The contents of `self.payoffs` after `BinomialESOP.present_value` returns:
`calculate_option_values` executes `payoffs[self.vesting_mask] = 0` on the very
array stored in `self.payoffs`, so the stored matrix is the masked one. -/
def esop_stored_payoffs (c : CRRConfig) (vp : ℝ) : ℕ → ℕ → ℝ :=
  maskPayoffs c.dt vp (crr_payoffs c)

/-- The contents of `self.payoffs` after `EnhancedFASB.present_value` returns
(the same in-place mask is executed at the top of its
`calculate_option_values`). -/
def fasb_stored_payoffs (c : CRRConfig) (vp : ℝ) : ℕ → ℕ → ℝ :=
  maskPayoffs c.dt vp (crr_payoffs c)

/-! ### Concrete configurations used by witnesses and counterexamples -/

/-- European call, `S0 = 100, K = 100, sigma = 1, r = 0, q = 0, T = 1, M = 1`. -/
def cfgW : CRRConfig := ⟨100, 100, 1, 0, 0, 1, 1, true, false⟩

/-- European call, `S0 = 200, K = 100, sigma = 1, r = 0, q = 0, T = 1, M = 1`. -/
def cfgITM : CRRConfig := ⟨200, 100, 1, 0, 0, 1, 1, true, false⟩

/-- European call, `S0 = 100, K = 200, sigma = 1, r = 0, q = 0, T = 1, M = 1`. -/
def cfgOTM : CRRConfig := ⟨100, 200, 1, 0, 0, 1, 1, true, false⟩

/-- `S0 = 100, K = 100, sigma = 1/10, r = 1, q = 0, T = 1, M = 1`: a config
whose derived probability exceeds 1. -/
def cfgHighRate : CRRConfig := ⟨100, 100, 1/10, 1, 0, 1, 1, true, false⟩

/-- `S0 = 100, K = 100, sigma = 0, r = 1/20, q = 0, T = 1, M = 1`: zero
volatility, hence `u = d`. -/
def cfgZeroVol : CRRConfig := ⟨100, 100, 0, 1/20, 0, 1, 1, true, false⟩

/-! ### Basic lemmas -/

theorem triu_of_le {f : ℕ → ℕ → ℝ} {i j : ℕ} (h : i ≤ j) : triu f i j = f i j :=
  if_pos h

theorem triu_of_gt {f : ℕ → ℕ → ℝ} {i j : ℕ} (h : j < i) : triu f i j = 0 :=
  if_neg (by omega)

/-! ### C1: the Plain rule's backward recursion -/

/-- **C1.** For the Plain (`CoxRossRubinstein`) rule, at every valid node
`(i, j)` with `i ≤ j < M` the returned value matrix satisfies
`value = continuation` (European) or `value = max(payoff, continuation)`
(American), with `continuation = exp(-r*dt) * (p * value[i][j+1] +
(1-p) * value[i+1][j+1])`; and the terminal column `j = M` of the value
matrix equals the terminal column of the payoff matrix. -/
theorem plain_backward_induction (c : CRRConfig) (P : ℕ → ℕ → ℝ) (i j i' : ℕ)
    (hij : i ≤ j) (hjM : j < c.M) (hi' : i' ≤ c.M) :
    calculate_option_values c P i j =
      (if c.isAmerican then
        max (P i j) (Real.exp (-c.r * c.dt) *
          (c.p * calculate_option_values c P i (j + 1) +
            (1 - c.p) * calculate_option_values c P (i + 1) (j + 1)))
      else
        Real.exp (-c.r * c.dt) *
          (c.p * calculate_option_values c P i (j + 1) +
            (1 - c.p) * calculate_option_values c P (i + 1) (j + 1))) ∧
    calculate_option_values c P i' c.M = P i' c.M := by
  have hiM : i < c.M := lt_of_le_of_lt hij hjM
  constructor
  · have e0 : calculate_option_values c P i j =
        crrValueAux c.M P c.p (Real.exp (-c.r * c.dt)) c.isAmerican (c.M - j) i j :=
      triu_of_le hij
    have e1 : calculate_option_values c P i (j + 1) =
        crrValueAux c.M P c.p (Real.exp (-c.r * c.dt)) c.isAmerican (c.M - (j + 1)) i (j + 1) :=
      triu_of_le (by omega)
    have e2 : calculate_option_values c P (i + 1) (j + 1) =
        crrValueAux c.M P c.p (Real.exp (-c.r * c.dt)) c.isAmerican (c.M - (j + 1)) (i + 1) (j + 1) :=
      triu_of_le (by omega)
    rw [e0, e1, e2, show c.M - j = (c.M - (j + 1)) + 1 by omega]
    simp only [crrValueAux, if_pos hjM, if_pos hiM]
  · have e3 : calculate_option_values c P i' c.M =
        crrValueAux c.M P c.p (Real.exp (-c.r * c.dt)) c.isAmerican (c.M - c.M) i' c.M :=
      triu_of_le hi'
    rw [e3, Nat.sub_self]
    rfl

/-- A concrete payoff matrix used by witnesses: `Pw a b = a + 2 * b`. -/
def Pw : ℕ → ℕ → ℝ := fun a b => (a : ℝ) + 2 * (b : ℝ)

/-- Witness for C1 at `cfgW` (`M = 1`) with payoff matrix `Pw`, node `(0, 0)`
and terminal row `1`. -/
theorem plain_backward_induction_witness :
    ((0 : ℕ) ≤ 0 ∧ 0 < cfgW.M ∧ 1 ≤ cfgW.M) ∧
    (calculate_option_values cfgW Pw 0 0 =
      (if cfgW.isAmerican then
        max (Pw 0 0) (Real.exp (-cfgW.r * cfgW.dt) *
          (cfgW.p * calculate_option_values cfgW Pw 0 (0 + 1) +
            (1 - cfgW.p) * calculate_option_values cfgW Pw (0 + 1) (0 + 1)))
      else
        Real.exp (-cfgW.r * cfgW.dt) *
          (cfgW.p * calculate_option_values cfgW Pw 0 (0 + 1) +
            (1 - cfgW.p) * calculate_option_values cfgW Pw (0 + 1) (0 + 1))) ∧
      calculate_option_values cfgW Pw 1 cfgW.M = Pw 1 cfgW.M) :=
  ⟨⟨le_refl 0, by decide, by decide⟩,
    plain_backward_induction cfgW Pw 0 0 1 (le_refl 0) (by decide) (by decide)⟩

/-! ### C2: the VestingTurnover (`BinomialESOP`) rule -/

/-- **C2.** For the `BinomialESOP` rule, payoffs at every node with elapsed
time `j' * dt ≤ vesting_period` are zeroed before any node valuation (the
loop only ever reads the masked payoffs), and at every valid node `(i, j)`
with `i ≤ j < M` the value matrix satisfies
`value = totalProb * payoff + (1 - totalProb) * continuation`, with
`totalProb = exerciseProb + (1 - exerciseProb) * turnoverRate`, and with
`max(payoff, blended)` on top exactly when the exercise style is American. -/
theorem esop_backward_induction (c : CRRConfig) (vp tr : ℝ) (ex P : ℕ → ℕ → ℝ)
    (i j i' j' : ℕ) (hij : i ≤ j) (hjM : j < c.M)
    (hmask : (j' : ℝ) * c.dt ≤ vp) :
    maskPayoffs c.dt vp P i' j' = 0 ∧
    esop_calculate_option_values c vp tr ex P i j =
      (if c.isAmerican then
        max (maskPayoffs c.dt vp P i j)
          ((ex i j + (1 - ex i j) * tr) * maskPayoffs c.dt vp P i j +
            (1 - (ex i j + (1 - ex i j) * tr)) *
              (Real.exp (-c.r * c.dt) *
                (c.p * esop_calculate_option_values c vp tr ex P i (j + 1) +
                  (1 - c.p) * esop_calculate_option_values c vp tr ex P (i + 1) (j + 1))))
      else
        (ex i j + (1 - ex i j) * tr) * maskPayoffs c.dt vp P i j +
          (1 - (ex i j + (1 - ex i j) * tr)) *
            (Real.exp (-c.r * c.dt) *
              (c.p * esop_calculate_option_values c vp tr ex P i (j + 1) +
                (1 - c.p) * esop_calculate_option_values c vp tr ex P (i + 1) (j + 1)))) := by
  have hiM : i < c.M := lt_of_le_of_lt hij hjM
  refine ⟨if_pos hmask, ?_⟩
  have e0 : esop_calculate_option_values c vp tr ex P i j =
      esopValueAux c.M (maskPayoffs c.dt vp P) c.p (Real.exp (-c.r * c.dt)) tr ex
        c.isAmerican (c.M - j) i j :=
    triu_of_le hij
  have e1 : esop_calculate_option_values c vp tr ex P i (j + 1) =
      esopValueAux c.M (maskPayoffs c.dt vp P) c.p (Real.exp (-c.r * c.dt)) tr ex
        c.isAmerican (c.M - (j + 1)) i (j + 1) :=
    triu_of_le (by omega)
  have e2 : esop_calculate_option_values c vp tr ex P (i + 1) (j + 1) =
      esopValueAux c.M (maskPayoffs c.dt vp P) c.p (Real.exp (-c.r * c.dt)) tr ex
        c.isAmerican (c.M - (j + 1)) (i + 1) (j + 1) :=
    triu_of_le (by omega)
  rw [e0, e1, e2, show c.M - j = (c.M - (j + 1)) + 1 by omega]
  simp only [esopValueAux, if_pos hjM, if_pos hiM]

/-- Witness for C2 at `cfgW` with `vp = 0`, `tr = 1/2`, exercise
probabilities `1/2`, payoffs `Pw`, node `(0, 0)`, masked node `(0, 0)`
(column `0` is inside the vesting mask since `0 * dt ≤ 0`). -/
theorem esop_backward_induction_witness :
    ((0 : ℕ) ≤ 0 ∧ 0 < cfgW.M ∧ ((0 : ℕ) : ℝ) * cfgW.dt ≤ 0) ∧
    (maskPayoffs cfgW.dt 0 Pw 0 0 = 0 ∧
    esop_calculate_option_values cfgW 0 (1/2) (fun _ _ => 1/2) Pw 0 0 =
      (if cfgW.isAmerican then
        max (maskPayoffs cfgW.dt 0 Pw 0 0)
          (((fun _ _ => (1:ℝ)/2) 0 0 + (1 - (fun _ _ => (1:ℝ)/2) 0 0) * (1/2)) * maskPayoffs cfgW.dt 0 Pw 0 0 +
            (1 - ((fun _ _ => (1:ℝ)/2) 0 0 + (1 - (fun _ _ => (1:ℝ)/2) 0 0) * (1/2))) *
              (Real.exp (-cfgW.r * cfgW.dt) *
                (cfgW.p * esop_calculate_option_values cfgW 0 (1/2) (fun _ _ => 1/2) Pw 0 (0 + 1) +
                  (1 - cfgW.p) * esop_calculate_option_values cfgW 0 (1/2) (fun _ _ => 1/2) Pw (0 + 1) (0 + 1))))
      else
        ((fun _ _ => (1:ℝ)/2) 0 0 + (1 - (fun _ _ => (1:ℝ)/2) 0 0) * (1/2)) * maskPayoffs cfgW.dt 0 Pw 0 0 +
          (1 - ((fun _ _ => (1:ℝ)/2) 0 0 + (1 - (fun _ _ => (1:ℝ)/2) 0 0) * (1/2))) *
            (Real.exp (-cfgW.r * cfgW.dt) *
              (cfgW.p * esop_calculate_option_values cfgW 0 (1/2) (fun _ _ => 1/2) Pw 0 (0 + 1) +
                (1 - cfgW.p) * esop_calculate_option_values cfgW 0 (1/2) (fun _ _ => 1/2) Pw (0 + 1) (0 + 1))))) :=
  ⟨⟨le_refl 0, by decide, by norm_num⟩,
    esop_backward_induction cfgW 0 (1/2) (fun _ _ => 1/2) Pw 0 0 0 0
      (le_refl 0) (by decide) (by norm_num)⟩

/-! ### C3: the BarrierTurnover (`EnhancedFASB`) rule -/

/-- **C3.** For the `EnhancedFASB` rule, after vesting masking, at every valid
node `(i, j)` with `i ≤ j < M`: if `price[i][j] ≥ exerciseMultiplier * K` and
`j * dt > vestingPeriod` then the node value is exactly the (masked) payoff —
the continuation value is discarded, for either exercise style; otherwise the
node value is `tr * dt * payoff + (1 - tr * dt) * continuation`, with
`max(payoff, that value)` on top when the exercise style is American. -/
theorem fasb_backward_induction (c : CRRConfig) (vp tr km : ℝ)
    (priceTree P : ℕ → ℕ → ℝ) (i j : ℕ) (hij : i ≤ j) (hjM : j < c.M) :
    fasb_calculate_option_values c vp tr km priceTree P i j =
      (if km * c.K ≤ priceTree i j ∧ vp < (j : ℝ) * c.dt then
        maskPayoffs c.dt vp P i j
      else if c.isAmerican then
        max (maskPayoffs c.dt vp P i j)
          (tr * c.dt * maskPayoffs c.dt vp P i j + (1 - tr * c.dt) *
            (Real.exp (-c.r * c.dt) *
              (c.p * fasb_calculate_option_values c vp tr km priceTree P i (j + 1) +
                (1 - c.p) * fasb_calculate_option_values c vp tr km priceTree P (i + 1) (j + 1))))
      else
        tr * c.dt * maskPayoffs c.dt vp P i j + (1 - tr * c.dt) *
          (Real.exp (-c.r * c.dt) *
            (c.p * fasb_calculate_option_values c vp tr km priceTree P i (j + 1) +
              (1 - c.p) * fasb_calculate_option_values c vp tr km priceTree P (i + 1) (j + 1)))) := by
  have hiM : i < c.M := lt_of_le_of_lt hij hjM
  have e0 : fasb_calculate_option_values c vp tr km priceTree P i j =
      fasbValueAux c.M (maskPayoffs c.dt vp P) priceTree c.p (Real.exp (-c.r * c.dt))
        tr c.dt vp km c.K c.isAmerican (c.M - j) i j :=
    triu_of_le hij
  have e1 : fasb_calculate_option_values c vp tr km priceTree P i (j + 1) =
      fasbValueAux c.M (maskPayoffs c.dt vp P) priceTree c.p (Real.exp (-c.r * c.dt))
        tr c.dt vp km c.K c.isAmerican (c.M - (j + 1)) i (j + 1) :=
    triu_of_le (by omega)
  have e2 : fasb_calculate_option_values c vp tr km priceTree P (i + 1) (j + 1) =
      fasbValueAux c.M (maskPayoffs c.dt vp P) priceTree c.p (Real.exp (-c.r * c.dt))
        tr c.dt vp km c.K c.isAmerican (c.M - (j + 1)) (i + 1) (j + 1) :=
    triu_of_le (by omega)
  rw [e0, e1, e2, show c.M - j = (c.M - (j + 1)) + 1 by omega]
  simp only [fasbValueAux, if_pos hjM, if_pos hiM]
  by_cases hcond : km * c.K ≤ priceTree i j ∧ vp < (j : ℝ) * c.dt
  · rw [if_pos hcond, if_pos hcond]
    cases c.isAmerican
    · rfl
    · simp [max_self]
  · rw [if_neg hcond, if_neg hcond]

/-- Witness for C3 at `cfgW` with `vp = 0`, `tr = 1/2`, `km = 1`, price tree
and payoffs `Pw`, node `(0, 0)`. -/
theorem fasb_backward_induction_witness :
    ((0 : ℕ) ≤ 0 ∧ 0 < cfgW.M) ∧
    fasb_calculate_option_values cfgW 0 (1/2) 1 Pw Pw 0 0 =
      (if (1 : ℝ) * cfgW.K ≤ Pw 0 0 ∧ (0 : ℝ) < ((0 : ℕ) : ℝ) * cfgW.dt then
        maskPayoffs cfgW.dt 0 Pw 0 0
      else if cfgW.isAmerican then
        max (maskPayoffs cfgW.dt 0 Pw 0 0)
          ((1/2) * cfgW.dt * maskPayoffs cfgW.dt 0 Pw 0 0 + (1 - (1/2) * cfgW.dt) *
            (Real.exp (-cfgW.r * cfgW.dt) *
              (cfgW.p * fasb_calculate_option_values cfgW 0 (1/2) 1 Pw Pw 0 (0 + 1) +
                (1 - cfgW.p) * fasb_calculate_option_values cfgW 0 (1/2) 1 Pw Pw (0 + 1) (0 + 1))))
      else
        (1/2) * cfgW.dt * maskPayoffs cfgW.dt 0 Pw 0 0 + (1 - (1/2) * cfgW.dt) *
          (Real.exp (-cfgW.r * cfgW.dt) *
            (cfgW.p * fasb_calculate_option_values cfgW 0 (1/2) 1 Pw Pw 0 (0 + 1) +
              (1 - cfgW.p) * fasb_calculate_option_values cfgW 0 (1/2) 1 Pw Pw (0 + 1) (0 + 1)))) :=
  ⟨⟨le_refl 0, by decide⟩,
    fasb_backward_induction cfgW 0 (1/2) 1 Pw Pw 0 0 (le_refl 0) (by decide)⟩

/-! ### C5: the price-tree closed form -/

/-- **C5.** The price tree satisfies `S[i][j] = S0 * u^(j-i) * d^i` at every
node `i ≤ j ≤ M`, with `u = exp(sigma * sqrt(dt))` and `d = 1/u`: the node
depends only on the number of up-moves `j - i` and down-moves `i`. -/
theorem price_tree_node (c : CRRConfig) (i j : ℕ) (hij : i ≤ j) (_hjM : j ≤ c.M) :
    simulate_price_tree c i j = c.S0 * c.u ^ (j - i) * c.d ^ i := by
  have h1 : c.S0 * c.u ^ (j - i) * c.d ^ i =
      c.S0 * Real.exp (c.sigma * Real.sqrt c.dt * ((j : ℝ) - 2 * (i : ℝ))) := by
    simp only [CRRConfig.d, CRRConfig.u]
    rw [one_div, inv_pow, ← Real.exp_nat_mul, ← Real.exp_nat_mul, ← Real.exp_neg,
      mul_assoc, ← Real.exp_add]
    congr 1
    have hji : ((j - i : ℕ) : ℝ) = (j : ℝ) - (i : ℝ) := by
      exact Nat.cast_sub hij
    rw [hji]
    ring_nf
  rw [h1]
  simp only [simulate_price_tree, triu, if_pos hij]

/-- Witness for C5 at `cfgW`, node `(0, 1)`. -/
theorem price_tree_node_witness :
    ((0 : ℕ) ≤ 1 ∧ 1 ≤ cfgW.M) ∧
    simulate_price_tree cfgW 0 1 = cfgW.S0 * cfgW.u ^ (1 - 0) * cfgW.d ^ 0 :=
  ⟨⟨by decide, by decide⟩, price_tree_node cfgW 0 1 (by decide) (by decide)⟩

/-! ### C9: all returned matrices are upper triangular -/

/-- **C9.** Every matrix returned to the caller — the price tree, the payoff
matrix, and the value matrix of each of the three pricer variants — is zero at
every entry strictly below the diagonal (`j < i`). -/
theorem matrices_upper_triangular (c : CRRConfig) (vp tr km : ℝ)
    (ex P priceTree : ℕ → ℕ → ℝ) (i j : ℕ) (hji : j < i) :
    simulate_price_tree c i j = 0 ∧
    calculate_payoffs c priceTree i j = 0 ∧
    calculate_option_values c P i j = 0 ∧
    esop_calculate_option_values c vp tr ex P i j = 0 ∧
    fasb_calculate_option_values c vp tr km priceTree P i j = 0 := by
  have h : ¬ i ≤ j := by omega
  refine ⟨if_neg h, ?_, if_neg h, if_neg h, if_neg h⟩
  unfold calculate_payoffs triu
  split_ifs with hc
  · simp [if_neg h]
  · simp [if_neg h]

/-- Witness for C9 at `cfgW` with entry `(1, 0)`. -/
theorem matrices_upper_triangular_witness :
    (0 : ℕ) < 1 ∧
    (simulate_price_tree cfgW 1 0 = 0 ∧
    calculate_payoffs cfgW Pw 1 0 = 0 ∧
    calculate_option_values cfgW Pw 1 0 = 0 ∧
    esop_calculate_option_values cfgW 0 (1/2) (fun _ _ => 1/2) Pw 1 0 = 0 ∧
    fasb_calculate_option_values cfgW 0 (1/2) 1 Pw Pw 1 0 = 0) :=
  ⟨by decide,
    matrices_upper_triangular cfgW 0 (1/2) 1 (fun _ _ => 1/2) Pw Pw 1 0 (by decide)⟩

/-! ### C4: no arbitrage validation is performed -/

/-- **C4 (failing input).** At `cfgHighRate` (`sigma = 1/10, r = 1, T = 1,
M = 1`), the derived risk-neutral probability exceeds `1`, yet
`_calculate_movements` computes it with no check — and the same holds for the
override path `_overwrite_movements(11/10, 9/10)`.  `p` is a plain total
function of the configuration: no `ArbitrageViolation` error exists anywhere
in the code, so pricing proceeds with `p > 1`. -/
theorem arbitrage_not_validated :
    1 < cfgHighRate.p ∧ 1 < overwriteMovementsP cfgHighRate (11/10) (9/10) := by
  have hdt : cfgHighRate.dt = 1 := by norm_num [CRRConfig.dt, cfgHighRate]
  have hA1 : (1 : ℝ) < Real.exp (1/10) := by nlinarith [Real.add_one_le_exp ((1 : ℝ)/10)]
  have hA0 : (0 : ℝ) < Real.exp (1/10) := Real.exp_pos _
  have hAB : Real.exp ((1 : ℝ)/10) < Real.exp 1 := Real.exp_lt_exp.mpr (by norm_num)
  have hinv : 1 / Real.exp ((1 : ℝ)/10) < 1 := by
    rw [div_lt_one hA0]; exact hA1
  constructor
  · have hp : cfgHighRate.p =
        (Real.exp 1 - 1 / Real.exp (1/10)) / (Real.exp (1/10) - 1 / Real.exp (1/10)) := by
      simp only [CRRConfig.p, CRRConfig.d, CRRConfig.u, hdt]
      norm_num [cfgHighRate]
    rw [hp, one_lt_div (by linarith)]
    linarith
  · have hp : overwriteMovementsP cfgHighRate (11/10) (9/10) =
        (Real.exp 1 - 9/10) / (11/10 - 9/10) := by
      simp only [overwriteMovementsP, hdt]
      norm_num [cfgHighRate]
    rw [hp, one_lt_div (by norm_num)]
    nlinarith [Real.add_one_le_exp (1 : ℝ)]

/-! ### C8: the `u == d` degeneracy is not detected -/

/-- **C8 (failing input).** At `cfgZeroVol` (`sigma = 0`), the movement
derivation yields `u = d = 1`, so the probability formula divides by
`u - d = 0`; the code performs no check and reports nothing — `p` is a plain
total function of the configuration (in numpy the division yields NaN/inf with
only a warning, and pricing proceeds). -/
theorem zero_vol_u_eq_d :
    cfgZeroVol.u = 1 ∧ cfgZeroVol.d = 1 ∧ cfgZeroVol.u - cfgZeroVol.d = 0 := by
  have hu : cfgZeroVol.u = 1 := by
    simp [CRRConfig.u, cfgZeroVol]
  have hd : cfgZeroVol.d = 1 := by
    simp [CRRConfig.d, hu]
  exact ⟨hu, hd, by rw [hu, hd]; ring⟩

/-! ### Shared numeric helpers -/

/-- For a config with `sigma = 1, r = 0, q = 0, T = 1, M = 1`, the derived
probability lies strictly between 0 and 1. -/
theorem p_mem_of_std (c : CRRConfig) (hs : c.sigma = 1) (hr : c.r = 0) (hq : c.q = 0)
    (hT : c.T = 1) (hM : c.M = 1) : 0 < c.p ∧ c.p < 1 := by
  have hdt : c.dt = 1 := by rw [CRRConfig.dt, hT, hM]; norm_num
  have hp : c.p = (1 - 1 / Real.exp 1) / (Real.exp 1 - 1 / Real.exp 1) := by
    simp only [CRRConfig.p, CRRConfig.d, CRRConfig.u, hdt, hs, hr, hq, Real.sqrt_one]
    norm_num [Real.exp_zero]
  have hE : (2 : ℝ) ≤ Real.exp 1 := by nlinarith [Real.add_one_le_exp (1 : ℝ)]
  have hE0 : (0 : ℝ) < Real.exp 1 := Real.exp_pos 1
  have hinv : 1 / Real.exp 1 < 1 := by rw [div_lt_one hE0]; linarith
  have hinv0 : 0 < 1 / Real.exp 1 := by positivity
  constructor
  · rw [hp]
    apply div_pos <;> linarith
  · rw [hp, div_lt_one (by linarith)]
    linarith

/-- Payoff matrices are entrywise nonnegative (`np.maximum(..., 0)`). -/
theorem calculate_payoffs_nonneg (c : CRRConfig) (pt : ℕ → ℕ → ℝ) (i j : ℕ) :
    0 ≤ calculate_payoffs c pt i j := by
  unfold calculate_payoffs
  split_ifs <;> exact le_max_right _ _

/-! ### C6: American is worth at least as much as European -/

/-- Node-wise comparison of the backward recursion with and without the
early-exercise `max`, for `0 ≤ p ≤ 1` and a nonnegative discount factor. -/
theorem crrValueAux_amer_ge (M : ℕ) (P : ℕ → ℕ → ℝ) (p disc : ℝ)
    (hp0 : 0 ≤ p) (hp1 : p ≤ 1) (hd : 0 ≤ disc) :
    ∀ fuel i j, crrValueAux M P p disc false fuel i j ≤
      crrValueAux M P p disc true fuel i j := by
  intro fuel
  induction fuel with
  | zero => intro i j; exact le_refl _
  | succ n ih =>
    intro i j
    by_cases hj : j < M
    · by_cases hi : i < M
      · simp only [crrValueAux, if_pos hj, if_pos hi]
        refine le_trans ?_ (le_max_right (P i j) _)
        have h1 := ih i (j + 1)
        have h2 := ih (i + 1) (j + 1)
        apply mul_le_mul_of_nonneg_left _ hd
        exact add_le_add (mul_le_mul_of_nonneg_left h1 hp0)
          (mul_le_mul_of_nonneg_left h2 (by linarith))
      · simp only [crrValueAux, if_pos hj, if_neg hi]
        exact le_refl 0
    · simp only [crrValueAux, if_neg hj]
      exact le_refl _

/-- **C6.** For every configuration with `0 < p < 1`, the Plain-rule present
value with American exercise is at least the present value with European
exercise, and the same inequality holds at every node of the value matrix
(the two configurations differ only in the exercise style). -/
theorem american_ge_european (c : CRRConfig) (hp0 : 0 < c.p) (hp1 : c.p < 1)
    (i j : ℕ) :
    present_value { c with isAmerican := false } ≤
      present_value { c with isAmerican := true } ∧
    crr_values { c with isAmerican := false } i j ≤
      crr_values { c with isAmerican := true } i j := by
  have key : ∀ a b : ℕ, crr_values { c with isAmerican := false } a b ≤
      crr_values { c with isAmerican := true } a b := by
    intro a b
    by_cases hab : a ≤ b
    · have eF : crr_values { c with isAmerican := false } a b =
          crrValueAux c.M (crr_payoffs c) c.p (Real.exp (-c.r * c.dt)) false (c.M - b) a b :=
        triu_of_le hab
      have eT : crr_values { c with isAmerican := true } a b =
          crrValueAux c.M (crr_payoffs c) c.p (Real.exp (-c.r * c.dt)) true (c.M - b) a b :=
        triu_of_le hab
      rw [eF, eT]
      exact crrValueAux_amer_ge c.M (crr_payoffs c) c.p (Real.exp (-c.r * c.dt))
        (le_of_lt hp0) (le_of_lt hp1) (le_of_lt (Real.exp_pos _)) (c.M - b) a b
    · have eF : crr_values { c with isAmerican := false } a b = 0 :=
        triu_of_gt (by omega)
      have eT : crr_values { c with isAmerican := true } a b = 0 :=
        triu_of_gt (by omega)
      rw [eF, eT]
  exact ⟨key 0 0, key i j⟩

/-- Witness for C6 at `cfgW`, whose probability lies in `(0, 1)`, at the
root node. -/
theorem american_ge_european_witness :
    (0 < cfgW.p ∧ cfgW.p < 1) ∧
    (present_value { cfgW with isAmerican := false } ≤
      present_value { cfgW with isAmerican := true } ∧
    crr_values { cfgW with isAmerican := false } 0 0 ≤
      crr_values { cfgW with isAmerican := true } 0 0) :=
  ⟨p_mem_of_std cfgW rfl rfl rfl rfl rfl,
    american_ge_european cfgW (p_mem_of_std cfgW rfl rfl rfl rfl rfl).1
      (p_mem_of_std cfgW rfl rfl rfl rfl rfl).2 0 0⟩

/-! ### C7: `BinomialESOP` with zero turnover and zero exercise probabilities
versus the Plain pricer -/

/-- With `tr = 0` and an all-zero exercise-probability matrix, the ESOP
backward recursion coincides with the plain one on the same payoff matrix. -/
theorem esopValueAux_turnover_zero (M : ℕ) (P : ℕ → ℕ → ℝ) (p disc : ℝ)
    (amer : Bool) :
    ∀ fuel i j, esopValueAux M P p disc 0 (fun _ _ => 0) amer fuel i j =
      crrValueAux M P p disc amer fuel i j := by
  intro fuel
  induction fuel with
  | zero => intro i j; rfl
  | succ n ih =>
    intro i j
    simp only [esopValueAux, crrValueAux, ih]
    norm_num

/-- A negative vesting period masks no node (elapsed times `j * dt` are
nonnegative when `dt ≥ 0`). -/
theorem maskPayoffs_of_neg (dt vp : ℝ) (P : ℕ → ℕ → ℝ) (hdt : 0 ≤ dt)
    (hvp : vp < 0) : maskPayoffs dt vp P = P := by
  funext i j
  exact if_neg (not_le.mpr (lt_of_lt_of_le hvp (mul_nonneg (Nat.cast_nonneg j) hdt)))

/-- **C7 (amended).** The `BinomialESOP` pricer with turnover rate 0 and an
all-zero exercise-probability matrix produces exactly the Plain pricer's value
at every node — provided the vesting mask is empty (here: negative vesting
period, with `T ≥ 0`).  With a nonnegative vesting period the claim as stated
fails, because `BinomialESOP` first zeroes the payoffs of every node with
`j * dt ≤ vesting_period` (see the counterexample). -/
theorem vesting_turnover_zero_is_plain (c : CRRConfig) (vp : ℝ)
    (hT : 0 ≤ c.T) (hvp : vp < 0) (i j : ℕ) :
    esop_values c vp 0 (fun _ _ => 0) i j = crr_values c i j := by
  have hdt : 0 ≤ c.dt := div_nonneg hT (Nat.cast_nonneg c.M)
  have hmask := maskPayoffs_of_neg c.dt vp (crr_payoffs c) hdt hvp
  by_cases hij : i ≤ j
  · have e0 : esop_values c vp 0 (fun _ _ => 0) i j =
        esopValueAux c.M (maskPayoffs c.dt vp (crr_payoffs c)) c.p
          (Real.exp (-c.r * c.dt)) 0 (fun _ _ => 0) c.isAmerican (c.M - j) i j :=
      triu_of_le hij
    have e1 : crr_values c i j =
        crrValueAux c.M (crr_payoffs c) c.p (Real.exp (-c.r * c.dt)) c.isAmerican
          (c.M - j) i j :=
      triu_of_le hij
    rw [e0, e1, hmask]
    exact esopValueAux_turnover_zero c.M (crr_payoffs c) c.p
      (Real.exp (-c.r * c.dt)) c.isAmerican (c.M - j) i j
  · have e0 : esop_values c vp 0 (fun _ _ => 0) i j = 0 := triu_of_gt (by omega)
    have e1 : crr_values c i j = 0 := triu_of_gt (by omega)
    rw [e0, e1]

/-- Witness for C7 (amended) at `cfgW` with vesting period `-1`, root node. -/
theorem vesting_turnover_zero_is_plain_witness :
    ((0 : ℝ) ≤ cfgW.T ∧ (-1 : ℝ) < 0) ∧
    esop_values cfgW (-1) 0 (fun _ _ => 0) 0 0 = crr_values cfgW 0 0 :=
  ⟨⟨by norm_num [cfgW], by norm_num⟩,
    vesting_turnover_zero_is_plain cfgW (-1) (by norm_num [cfgW]) (by norm_num) 0 0⟩

/-- At `cfgITM` with vesting period `1 = T`, every node of the grid has
`j * dt ≤ 1`, so `BinomialESOP` zeroes the whole payoff matrix and all its
node values vanish. -/
theorem esop_masked_all_zero : esop_values cfgITM 1 0 (fun _ _ => 0) 0 0 = 0 := by
  have e0 : esop_values cfgITM 1 0 (fun _ _ => 0) 0 0 =
      esopValueAux cfgITM.M (maskPayoffs cfgITM.dt 1 (crr_payoffs cfgITM)) cfgITM.p
        (Real.exp (-cfgITM.r * cfgITM.dt)) 0 (fun _ _ => 0) cfgITM.isAmerican
        (0 + 1) 0 0 :=
    triu_of_le (le_refl 0)
  rw [e0]
  norm_num [esopValueAux, maskPayoffs, cfgITM, CRRConfig.dt]

/-- At `cfgITM` (in-the-money European call, `r = 0`), the Plain root value is
strictly positive. -/
theorem plain_itm_root_pos : 0 < crr_values cfgITM 0 0 := by
  obtain ⟨hp0, hp1⟩ := p_mem_of_std cfgITM rfl rfl rfl rfl rfl
  have hdisc : Real.exp (-cfgITM.r * cfgITM.dt) = 1 := by
    norm_num [cfgITM, CRRConfig.dt, Real.exp_zero]
  have hP01 : crr_payoffs cfgITM 0 1 = max (200 * Real.exp 1 - 100) 0 := by
    unfold crr_payoffs calculate_payoffs simulate_price_tree triu
    norm_num [cfgITM, CRRConfig.dt, Real.sqrt_one]
  have hP11 : 0 ≤ crr_payoffs cfgITM 1 1 := calculate_payoffs_nonneg _ _ 1 1
  have hval : crr_values cfgITM 0 0 =
      cfgITM.p * crr_payoffs cfgITM 0 1 + (1 - cfgITM.p) * crr_payoffs cfgITM 1 1 := by
    have e0 : crr_values cfgITM 0 0 =
        crrValueAux cfgITM.M (crr_payoffs cfgITM) cfgITM.p
          (Real.exp (-cfgITM.r * cfgITM.dt)) cfgITM.isAmerican (0 + 1) 0 0 :=
      triu_of_le (le_refl 0)
    rw [e0, hdisc]
    norm_num [crrValueAux, cfgITM]
  have hE : (2 : ℝ) ≤ Real.exp 1 := by nlinarith [Real.add_one_le_exp (1 : ℝ)]
  have h1 : 0 < 200 * Real.exp 1 - 100 := by nlinarith
  have h2 : 200 * Real.exp 1 - 100 ≤ max (200 * Real.exp 1 - 100) 0 := le_max_left _ _
  rw [hval, hP01]
  nlinarith [mul_le_mul_of_nonneg_left h2 (le_of_lt hp0),
    mul_nonneg (by linarith : (0 : ℝ) ≤ 1 - cfgITM.p) hP11, mul_pos hp0 h1]

/-- **C7 (counterexample).** At `cfgITM` with vesting period `1` (the claim as
stated imposes no restriction on the vesting period), the `BinomialESOP` value
with `tr = 0` and all-zero exercise probabilities differs from the Plain value
at the root node: the vesting mask has zeroed every payoff, so the ESOP value
is 0 while the Plain value is positive. -/
theorem vesting_turnover_zero_not_plain :
    esop_values cfgITM 1 0 (fun _ _ => 0) 0 0 ≠ crr_values cfgITM 0 0 := by
  rw [esop_masked_all_zero]
  exact (plain_itm_root_pos).ne

/-! ### C10: `calculate_option_values` mutates the stored payoff matrix -/

/-- **C10 (amended).** After `present_value` returns, in both ESOP variants
the stored payoff matrix is zero at every node with `j * dt ≤ vestingPeriod`,
in particular at every node of column `j = 0` whenever the vesting period is
nonnegative (since `0 * dt = 0`); every node with `j * dt > vestingPeriod` is
unchanged; and a masked node no longer equals the intrinsic payoff wherever
that payoff is positive. -/
theorem stored_payoffs_frame (c : CRRConfig) (vp : ℝ) (i j : ℕ) :
    ((j : ℝ) * c.dt ≤ vp →
      esop_stored_payoffs c vp i j = 0 ∧ fasb_stored_payoffs c vp i j = 0) ∧
    (¬ (j : ℝ) * c.dt ≤ vp →
      esop_stored_payoffs c vp i j = crr_payoffs c i j ∧
      fasb_stored_payoffs c vp i j = crr_payoffs c i j) ∧
    (0 ≤ vp →
      esop_stored_payoffs c vp i 0 = 0 ∧ fasb_stored_payoffs c vp i 0 = 0) ∧
    ((j : ℝ) * c.dt ≤ vp → 0 < crr_payoffs c i j →
      esop_stored_payoffs c vp i j ≠ crr_payoffs c i j) := by
  refine ⟨fun hm => ⟨if_pos hm, if_pos hm⟩,
    fun hm => ⟨if_neg hm, if_neg hm⟩, fun hvp => ?_, fun hm hpos => ?_⟩
  · have h0 : ((0 : ℕ) : ℝ) * c.dt ≤ vp := by simpa using hvp
    exact ⟨if_pos h0, if_pos h0⟩
  · have hz : esop_stored_payoffs c vp i j = 0 := if_pos hm
    rw [hz]
    exact hpos.ne

/-- Witness for C10 (amended) at `cfgITM` with vesting period `0`: node
`(0, 0)` is masked and in the money (intrinsic payoff `100`), so it is stored
as zero and differs from the intrinsic payoff; node `(0, 1)` is unmasked and
stored unchanged; column `0` is masked since the vesting period is `0 ≥ 0`. -/
theorem stored_payoffs_frame_witness :
    (((0 : ℕ) : ℝ) * cfgITM.dt ≤ 0 ∧ 0 < crr_payoffs cfgITM 0 0 ∧
      ¬ ((1 : ℕ) : ℝ) * cfgITM.dt ≤ 0 ∧ (0 : ℝ) ≤ 0) ∧
    (esop_stored_payoffs cfgITM 0 0 0 = 0 ∧ fasb_stored_payoffs cfgITM 0 0 0 = 0) ∧
    (esop_stored_payoffs cfgITM 0 0 1 = crr_payoffs cfgITM 0 1 ∧
      fasb_stored_payoffs cfgITM 0 0 1 = crr_payoffs cfgITM 0 1) ∧
    esop_stored_payoffs cfgITM 0 0 0 ≠ crr_payoffs cfgITM 0 0 := by
  have ha : ((0 : ℕ) : ℝ) * cfgITM.dt ≤ 0 := by norm_num
  have hb : 0 < crr_payoffs cfgITM 0 0 := by
    unfold crr_payoffs calculate_payoffs simulate_price_tree triu
    norm_num [cfgITM, Real.exp_zero]
  have hc : ¬ ((1 : ℕ) : ℝ) * cfgITM.dt ≤ 0 := by
    norm_num [cfgITM, CRRConfig.dt]
  have h1 := stored_payoffs_frame cfgITM 0 0 0
  have h2 := stored_payoffs_frame cfgITM 0 0 1
  exact ⟨⟨ha, hb, hc, le_refl 0⟩, h1.1 ha, h2.2.1 hc, h1.2.2.2 ha hb⟩

/-- **C10 (counterexample).** The claim's clause that masked entries "no
longer equal the intrinsic payoff" fails when the intrinsic payoff is already
zero: at `cfgOTM` (out-of-the-money call, `S0 = 100 < K = 200`) with vesting
period `0`, node `(0, 0)` is masked, yet the stored payoff still equals the
intrinsic payoff (both are `0`). -/
theorem stored_payoff_can_equal_intrinsic :
    ((0 : ℕ) : ℝ) * cfgOTM.dt ≤ 0 ∧
    esop_stored_payoffs cfgOTM 0 0 0 = crr_payoffs cfgOTM 0 0 := by
  constructor
  · norm_num
  · have h0 : esop_stored_payoffs cfgOTM 0 0 0 = 0 := if_pos (by norm_num)
    have h1 : crr_payoffs cfgOTM 0 0 = 0 := by
      unfold crr_payoffs calculate_payoffs simulate_price_tree triu
      norm_num [cfgOTM, Real.exp_zero]
    rw [h0, h1]

end Esop
